import Mathlib

/-!
Verification of the Nonogrammeroo nonogram solver (`nonogrammeroo.py`).

The Python source is shallowly embedded: cells are `Bool` (True = full),
coordinates are `Nat × Nat` pairs `(x, y)`, regions and the board are
structures mirroring the classes `Region` and `NonogramBoard`, and the
CP model built inside `NonogramBoard.solve` is embedded as an explicit
per-region constraint structure (`RegionModel`) whose satisfaction is a
decidable predicate.  Fallible Python operations (list indexing, `max`
of a list, raised exceptions) are embedded with `Except String`.
-/

/-- Number of `true` entries of a boolean list (the value of
`cp_model.LinearExpr.Sum` over a region's cell variables). -/
def countTrue (l : List Bool) : Nat := l.count true

/-- All lists of length `n` whose entries are drawn from `xs`. -/
def tuplesOf {α : Type} (n : Nat) (xs : List α) : List (List α) :=
  match n with
  | 0 => [[]]
  | m + 1 => xs.flatMap (fun x => (tuplesOf m xs).map (fun l => x :: l))

/-- Embedding of Python's `max` over a list, which raises `ValueError`
on an empty sequence. -/
def pyMax (l : List Nat) : Except String Nat :=
  match l with
  | [] => .error "ValueError: max() arg is an empty sequence"
  | x :: xs => .ok (xs.foldl Nat.max x)

/-- Embedding of Python's list indexing `l[i]`, which raises
`IndexError` when the index is out of range. -/
def pyGet {α : Type} (l : List α) (i : Nat) : Except String α :=
  match l.get? i with
  | some x => .ok x
  | none => .error "IndexError: list index out of range"

/-- Embedding of the Python class `Region`: an ordered list of cell
coordinates (`_region`, each `(x, y)`) plus the run-length constraint
(`_constraint`). -/
structure Region where
  region : List (Nat × Nat)
  constraint : List Nat
deriving DecidableEq, Repr

/-- Embedding of `Region.is_row`: the list of x coordinates contains the
first coordinate's x as many times as the region has cells. -/
def Region.is_row (r : Region) : Bool :=
  (r.region.map Prod.fst).count (r.region.headD (0, 0)).fst == r.region.length

/-- Embedding of `Region.is_column`: the list of y coordinates contains
the first coordinate's y as many times as the region has cells. -/
def Region.is_column (r : Region) : Bool :=
  (r.region.map Prod.snd).count (r.region.headD (0, 0)).snd == r.region.length

/-- Coordinates of row region `i`: `Coordinates(i, j)` for `j < size`,
as built in `NonogramBoard.__init__`. -/
def rowCoords (size i : Nat) : List (Nat × Nat) :=
  (List.range size).map (fun j => (i, j))

/-- Coordinates of column region `i`: `Coordinates(j, i)` for `j < size`,
as built in `NonogramBoard.__init__`. -/
def colCoords (size i : Nat) : List (Nat × Nat) :=
  (List.range size).map (fun j => (j, i))

/-- The interleaved region list `[row 0, column 0, row 1, column 1, ...]`
built by `NonogramBoard.__init__`, here with arbitrary constraints
already attached to each region (`__init__` itself attaches `[]`). -/
def mkRegions (n : Nat) (rowC colC : List (List Nat)) : List Region :=
  (List.range n).flatMap (fun i =>
    [ { region := rowCoords n i, constraint := rowC.getD i [] },
      { region := colCoords n i, constraint := colC.getD i [] } ])

/-- Embedding of the Python class `NonogramBoard`: size, the live grid of
cell values, the region list and the stored solutions (kept here as the
cell-value grids of the solutions found). -/
structure NonogramBoard where
  size : Int
  board : List (List Bool)
  regions : List Region
  solutions : List (List (List Bool))
deriving DecidableEq, Repr

/-- Embedding of `NonogramBoard.__init__(size)`.  Python performs no
validation of `size`: for `size <= 0` both `[row] * size` and
`range(size)` are empty, so the board is constructed normally with an
empty grid and no regions.  The grid value `[[Cell()] * size] * size` is
an all-empty `size × size` grid. -/
def NonogramBoard.init (size : Int) : NonogramBoard :=
  { size := size
  , board := List.replicate size.toNat (List.replicate size.toNat false)
  , regions := mkRegions size.toNat (List.replicate size.toNat [])
      (List.replicate size.toNat [])
  , solutions := [] }

/-- A board in the shape produced by `__init__` followed by constraint
assignments: row region `i` carries `rowC[i]`, column region `i` carries
`colC[i]`. -/
def boardOf (n : Nat) (rowC colC : List (List Nat)) : NonogramBoard :=
  { size := (n : Int)
  , board := List.replicate n (List.replicate n false)
  , regions := mkRegions n rowC colC
  , solutions := [] }

/-- Replace the constraint of the first region satisfying `p`, mirroring
`selected = [region for region in self.regions if ...]` followed by the
in-place mutation `selected[0].constraint = constraint`. -/
def setFirstConstraint (p : Region → Bool) (c : List Nat) : List Region → List Region
  | [] => []
  | r :: rs =>
      if p r then { r with constraint := c } :: rs
      else r :: setFirstConstraint p c rs

/-- The region filter used by `NonogramBoard.constraint_of` for a given
direction and index: rows are matched on the first coordinate's x,
anything other than `"row"` is treated as a column and matched on the
first coordinate's y. -/
def regionPred (direction : String) (index : Int) (r : Region) : Bool :=
  if direction = "row" then
    r.is_row && (((r.region.headD (0, 0)).fst : Int) == index)
  else
    r.is_column && (((r.region.headD (0, 0)).snd : Int) == index)

/-- Embedding of `NonogramBoard.constraint_of(direction, index, constraint)`.
It raises `IndexError` when `index not in range(0, size)`; otherwise it
assigns the constraint to `selected[0]`, the first region passing the
direction filter (`selected[0]` itself raises `IndexError` when the
filtered list is empty). -/
def NonogramBoard.constraint_of (b : NonogramBoard) (direction : String)
    (index : Int) (constraint : List Nat) : Except String NonogramBoard :=
  if index < 0 ∨ b.size ≤ index then
    .error "IndexError: Index out of the game board"
  else if (b.regions.filter (regionPred direction index)).isEmpty then
    .error "IndexError: list index out of range"
  else
    .ok { b with
          regions := setFirstConstraint (regionPred direction index) constraint b.regions }

/-- The compiled CP model of one region, as built inside
`NonogramBoard.solve`: the target of the cell-sum constraint, the
domains `(lb, ub)` of the space variables in creation order
`space_0 .. space_k`, the defining data of each sequence-element
variable (number of preceding space variables, constant offset
`seq_cum + i`), and the target of the space-sum constraint. -/
structure RegionModel where
  sumFilled : Nat
  gapDoms : List (Int × Int)
  posDefs : List (Nat × Nat)
  gapSum : Int
deriving DecidableEq, Repr

/-- Domains of the space variables `space_1 .. space_k` created inside the
loop over the constraint: lower bound `0` for the last sequence
(`seq_index == len(constraint)`), `1` otherwise; upper bound
`max(1, space_max)` throughout. -/
def gapDomsTail (spaceMax : Int) : List Nat → List (Int × Int)
  | [] => []
  | [_] => [(0, max 1 spaceMax)]
  | _ :: r :: rs => (1, max 1 spaceMax) :: gapDomsTail spaceMax (r :: rs)

/-- Defining data of the sequence-element variables: for the run numbered
`i` (1-based) with cumulative preceding length `seqCum`, each offset `o`
contributes the element `space_0 + ... + space_(i-1) + seqCum + o`,
recorded as the pair `(i, seqCum + o)`. -/
def posDefsFrom (i seqCum : Nat) : List Nat → List (Nat × Nat)
  | [] => []
  | r :: rs =>
      (List.range r).map (fun o => (i, seqCum + o)) ++ posDefsFrom (i + 1) (seqCum + r) rs

/-- Embedding of the per-region model construction in
`NonogramBoard.solve`, with `space_max = self.size - sum(constraint)`. -/
def compileRegion (size : Nat) (c : List Nat) : RegionModel :=
  { sumFilled := c.sum
  , gapDoms := (0, (size : Int) - (c.sum : Int)) :: gapDomsTail ((size : Int) - (c.sum : Int)) c
  , posDefs := posDefsFrom 1 0 c
  , gapSum := (size : Int) - (c.sum : Int) }

/-- Value of a sequence-element variable under a space-variable
assignment `g`: the sum of the first `p.fst` space variables plus the
constant `p.snd`. -/
def posVal (g : List Nat) (p : Nat × Nat) : Nat := (g.take p.fst).sum + p.snd

/-- Membership of a (nonnegative) value in an integer variable domain. -/
def inDomain (v : Nat) (d : Int × Int) : Prop := d.fst ≤ (v : Int) ∧ (v : Int) ≤ d.snd

instance (v : Nat) (d : Int × Int) : Decidable (inDomain v d) := by
  unfold inDomain; infer_instance

/-- Satisfaction of a compiled region model by a space-variable
assignment `g` and a line of cell values: every space variable lies in
its domain, the space variables sum to `space_max`, the cell variables
sum to `sum(constraint)`, and every sequence-element variable points at
a cell of the line that is full (`model.AddElement(el, vars, 1)`). -/
def modelSat (m : RegionModel) (g : List Nat) (line : List Bool) : Prop :=
  g.length = m.gapDoms.length ∧
  (∀ p ∈ g.zip m.gapDoms, inDomain p.fst p.snd) ∧
  (g.sum : Int) = m.gapSum ∧
  countTrue line = m.sumFilled ∧
  ∀ p ∈ m.posDefs, posVal g p < line.length ∧ line.getD (posVal g p) false = true

instance (m : RegionModel) (g : List Nat) (line : List Bool) :
    Decidable (modelSat m g line) := by
  unfold modelSat; infer_instance

/-- A complete list of candidate space-variable assignments for a region:
every assignment respecting the compiled domains has entries bounded by
`max 1 size`, hence occurs in this list. -/
def gapCandidates (size : Nat) (c : List Nat) : List (List Nat) :=
  tuplesOf (c.length + 1) (List.range (max 1 size + 1))

/-- A line satisfies a region's compiled constraints if some
space-variable assignment witnesses the compiled model. -/
def regionSat (size : Nat) (c : List Nat) (line : List Bool) : Prop :=
  ∃ g ∈ gapCandidates size c, modelSat (compileRegion size c) g line

instance (size : Nat) (c : List Nat) (line : List Bool) :
    Decidable (regionSat size c line) := by
  unfold regionSat; infer_instance

/-- The line of cell variables attached to a region inside
`NonogramBoard.solve`: row regions take the grid row indexed by the
first coordinate's x, other regions take the grid column indexed by the
first coordinate's y. -/
def regionLine (grid : List (List Bool)) (r : Region) : List Bool :=
  if r.is_row then grid.getD (r.region.headD (0, 0)).fst []
  else grid.map (fun row => row.getD (r.region.headD (0, 0)).snd false)

/-- A full grid assignment satisfies the compiled model of a board when
every region's constraints are satisfied on that region's line. -/
def boardSat (b : NonogramBoard) (grid : List (List Bool)) : Prop :=
  ∀ r ∈ b.regions, regionSat b.size.toNat r.constraint (regionLine grid r)

instance (b : NonogramBoard) (grid : List (List Bool)) :
    Decidable (boardSat b grid) := by
  unfold boardSat; infer_instance

/-- All `n × n` grids of cell values. -/
def allGrids (n : Nat) : List (List (List Bool)) :=
  tuplesOf n (tuplesOf n [false, true])

/-- Modelled from the spec: the solution enumeration that
`NonogramBoard.solve` delegates to the external ortools CP-SAT engine
(`solver.SearchForAllSolutions`, absent from this repository) is, per
spec section 4.3, an exhaustive enumeration of every cell assignment
satisfying all compiled region constraints simultaneously; infeasibility
is reported as zero callback invocations, not as a raised error. -/
def NonogramBoard.solveGrids (b : NonogramBoard) : List (List (List Bool)) :=
  (allGrids b.size.toNat).filter (fun grid => decide (boardSat b grid))

/-- Embedding of `NonogramBoard.solve()` as a state transformer: the
model is compiled from `self.regions`, solved, and the solutions found
replace `self.solutions` (`self.solutions = solutions.solutions`); no
other field of the board is touched. -/
def NonogramBoard.solve (b : NonogramBoard) : NonogramBoard :=
  { b with solutions := b.solveGrids }

/-- Maximal runs of full cells of a line, with the length of the run
currently being read as accumulator. -/
def runsGo : List Bool → Nat → List Nat
  | [], 0 => []
  | [], n + 1 => [n + 1]
  | true :: xs, n => runsGo xs (n + 1)
  | false :: xs, 0 => runsGo xs 0
  | false :: xs, n + 1 => (n + 1) :: runsGo xs 0

/-- The ordered sequence of maximal runs of full cells of a line. -/
def runsOf (l : List Bool) : List Nat := runsGo l 0

/-- The line laid out from a space-variable assignment `g0 :: gs` and a
run sequence: `g0` empty cells, then the first run, then recursively the
rest; once the runs are exhausted the remaining space variables lay out
empty cells. -/
def lineOf : List Nat → List Nat → List Bool
  | g :: gs, r :: rs => List.replicate g false ++ List.replicate r true ++ lineOf gs rs
  | g :: gs, [] => List.replicate g false ++ lineOf gs []
  | [], _ => []

/-- Absolute indices of the full cells of `lineOf g c`: for leading gap
`g` and first run `r`, the indices `g + o` for `o < r`, then the indices
of the rest shifted by `g + r`. -/
def shiftedPos : List Nat → List Nat → List Nat
  | g :: gs, r :: rs =>
      (List.range r).map (fun o => g + o) ++ (shiftedPos gs rs).map (fun p => g + r + p)
  | _, _ => []

/-- Column `j` of a grid, as read by `NonogramBoard.solve` through
`[var[region_index] for var in cp_cell]`. -/
def colLine (grid : List (List Bool)) (j : Nat) : List Bool :=
  grid.map (fun row => row.getD j false)

/-- A gap list all of whose entries except the first and the last are
positive: exactly the separation the compiled domains force on the
space variables strictly between two runs. -/
def innerPos : List Nat → Prop
  | [] => True
  | [_] => True
  | x :: y :: ys => 0 < x ∧ innerPos (y :: ys)

/-- True exactly on `Except.ok` results; a `false` result embeds a raised
Python exception. -/
def isOkE {α : Type} : Except String α → Bool
  | .ok _ => true
  | .error _ => false

/-- Right-align a string in a field of width `w` (Python format
`"{msg:>{w}}"`, also the default for numbers). -/
def padAlignRight (s : String) (w : Nat) : String :=
  String.mk (List.replicate (w - s.length) ' ') ++ s

/-- Left-align a string in a field of width `w` (Python default format
for strings, `"{msg:{w}}"`). -/
def padAlignLeft (s : String) (w : Nat) : String :=
  s ++ String.mk (List.replicate (w - s.length) ' ')

/-- Embedding of the `left_space` computation of `NonogramBoard.print`:
`max([len(region.constraint) for region in self.regions]) * 2`. -/
def NonogramBoard.leftSpaceOf (b : NonogramBoard) : Except String Nat := do
  let m ← pyMax (b.regions.map (fun r => r.constraint.length))
  pure (m * 2)

/-- Embedding of the `table_space` computation of `NonogramBoard.print`:
`len(str(max([max(region.constraint) for region in self.regions if
region.is_column()])))`.  The inner `max(region.constraint)` raises
`ValueError` on a region with an empty constraint. -/
def NonogramBoard.tableSpaceOf (b : NonogramBoard) : Except String Nat := do
  let maxima ← (b.regions.filter (fun r => r.is_column)).mapM (fun r => pyMax r.constraint)
  let m ← pyMax maxima
  pure (Nat.repr m).length

/-- The `msg` cell of the stacked column-constraint header for one column
region at header row `index`, and its formatting
`"{msg:{table_space}} "`: numbers right-align, the placeholder string
left-aligns, both are followed by one space. -/
def colConstraintMsg (maxC ts index : Nat) (r : Region) : Except String String :=
  if r.constraint.length < maxC then
    if maxC - index ≤ r.constraint.length then do
      let v ← pyGet r.constraint
        ((maxC : Int) - (r.constraint.length : Int) - (index : Int)).natAbs
      pure (padAlignRight (Nat.repr v) ts ++ " ")
    else
      pure (padAlignLeft " " ts ++ " ")
  else do
    let v ← pyGet r.constraint index
    pure (padAlignRight (Nat.repr v) ts ++ " ")

/-- One grid row of the printed board: the row constraint right-aligned
in the left margin, a separator, and the row's cells as the two glyphs
`O` / `_` right-aligned in the column width and joined by spaces. -/
def rowLineStr (ls ts : Nat) (r : Region) (row : List Bool) : String :=
  padAlignRight (String.intercalate " " (r.constraint.map Nat.repr)) ls ++ " | " ++
  String.intercalate " " (row.map (fun el => padAlignRight (if el then "O" else "_") ts))

/-- The part of `NonogramBoard.print` after `left_space` and
`table_space` are computed: the stacked column-constraint header rows,
the divider, then one line per `is_row` region, where `row_index`
advances only on such regions and indexes into `data`. -/
def printRest (b : NonogramBoard) (data : List (List Bool)) (ls ts : Nat) :
    Except String String := do
  let colRegions := b.regions.filter (fun r => r.is_column)
  let maxConstraint ← pyMax (colRegions.map (fun r => r.constraint.length))
  let headerRows ← (List.range maxConstraint).mapM (fun index => do
    let msgs ← colRegions.mapM (colConstraintMsg maxConstraint ts index)
    pure (padAlignLeft "" ls ++ " | " ++ String.join msgs ++ "\n"))
  let divider := String.mk
    (List.replicate (((ls : Int) + b.size * ((ts : Int) + 1) + 3).toNat) '-') ++ "\n"
  let rowRegions := b.regions.filter (fun r => r.is_row)
  let rowLines ← rowRegions.enum.mapM (fun p => do
    let rowData ← pyGet data p.fst
    pure (rowLineStr ls ts p.snd rowData ++ "\n"))
  pure (String.join headerRows ++ divider ++ String.join rowLines)

/-- The banner line of `NonogramBoard.print`: emitted only when no
solution data is supplied, in which case the live board is printed. -/
def printHeader (b : NonogramBoard) (dataOpt : Option (List (List Bool))) : String :=
  match dataOpt with
  | none => " *** Nonogram " ++ toString b.size ++ "x" ++ toString b.size ++ " board ***\n\n"
  | some _ => ""

/-- Embedding of `NonogramBoard.print(data)`.  With no data the live
board is printed under a banner line; the constraint margins and the
grid then follow.  Failure points, in evaluation order: `max` over the
region constraint lengths (empty only for boards without regions), the
nested `max` over the column regions' constraints (raises on an empty
column constraint), and the list indexing inside the loops. -/
def NonogramBoard.print (b : NonogramBoard) (dataOpt : Option (List (List Bool))) :
    Except String String := do
  let ls ← b.leftSpaceOf
  let ts ← b.tableSpaceOf
  let rest ← printRest b (dataOpt.getD b.board) ls ts
  pure (printHeader b dataOpt ++ rest)

/-- The largest run length occurring in a list of constraints (0 when
there are none): the quantity the spec prescribes for the column
alignment width. -/
def largestRun (cs : List (List Nat)) : Nat :=
  (cs.flatMap id).foldl Nat.max 0

/-- The largest number of runs in any one constraint of a list (0 when
there are none): half the left margin width prescribed by the spec. -/
def maxRunCount (cs : List (List Nat)) : Nat :=
  (cs.map List.length).foldl Nat.max 0

/-- Maximum of a list of naturals with 0 as the base. -/
def maxOf (l : List Nat) : Nat := l.foldl Nat.max 0

/-! ### Basic list lemmas -/

theorem getD_replicate_lt {α : Type} (a d : α) :
    ∀ {n m : Nat}, m < n → (List.replicate n a).getD m d = a := by
  intro n
  induction n with
  | zero => intro m h; omega
  | succ k ih =>
      intro m h
      cases m with
      | zero => rfl
      | succ j => simpa [List.replicate_succ] using ih (by omega)

theorem getD_of_length_le {α : Type} (d : α) :
    ∀ (l : List α) {m : Nat}, l.length ≤ m → l.getD m d = d := by
  intro l
  induction l with
  | nil => intro m _; simp
  | cons a t ih =>
      intro m h
      cases m with
      | zero => simp at h
      | succ j => simpa using ih (by simpa using h)

theorem mem_tuplesOf {α : Type} (xs : List α) :
    ∀ (n : Nat) (l : List α), l ∈ tuplesOf n xs ↔ l.length = n ∧ ∀ x ∈ l, x ∈ xs := by
  intro n
  induction n with
  | zero =>
      intro l
      constructor
      · intro h
        simp [tuplesOf] at h
        simp [h]
      · intro ⟨h1, _⟩
        simp [tuplesOf, List.length_eq_zero.mp h1]
  | succ m ih =>
      intro l
      constructor
      · intro h
        simp only [tuplesOf, List.mem_flatMap, List.mem_map] at h
        obtain ⟨x, hx, t, ht, rfl⟩ := h
        obtain ⟨hlen, hmem⟩ := (ih t).mp ht
        refine ⟨by simp [hlen], ?_⟩
        intro y hy
        rcases List.mem_cons.mp hy with h | h
        · exact h ▸ hx
        · exact hmem y h
      · intro ⟨h1, h2⟩
        cases l with
        | nil => simp at h1
        | cons a t =>
            simp only [tuplesOf, List.mem_flatMap, List.mem_map]
            exact ⟨a, h2 a (by simp), t,
              (ih t).mpr ⟨by simpa using h1, fun x hx => h2 x (by simp [hx])⟩,
              rfl⟩

theorem mem_allGrids (n : Nat) (grid : List (List Bool)) :
    grid ∈ allGrids n ↔ grid.length = n ∧ ∀ row ∈ grid, row.length = n := by
  unfold allGrids
  rw [mem_tuplesOf]
  constructor
  · intro ⟨h1, h2⟩
    exact ⟨h1, fun row hr => ((mem_tuplesOf _ _ _).mp (h2 row hr)).1⟩
  · intro ⟨h1, h2⟩
    refine ⟨h1, fun row hr => (mem_tuplesOf _ _ _).mpr ⟨h2 row hr, ?_⟩⟩
    intro b _
    cases b <;> simp

theorem mem_gapCandidates (size : Nat) (c : List Nat) (g : List Nat)
    (hlen : g.length = c.length + 1) (hbd : ∀ x ∈ g, x ≤ max 1 size) :
    g ∈ gapCandidates size c := by
  unfold gapCandidates
  rw [mem_tuplesOf]
  exact ⟨hlen, fun x hx => List.mem_range.mpr (by have := hbd x hx; omega)⟩

/-! ### Counting lemmas -/

theorem countTrue_cons (a : Bool) (l : List Bool) :
    countTrue (a :: l) = countTrue l + (if a then 1 else 0) := by
  cases a <;> simp [countTrue, List.count_cons]

theorem countTrue_append (l1 l2 : List Bool) :
    countTrue (l1 ++ l2) = countTrue l1 + countTrue l2 := by
  simp [countTrue, List.count_append]

theorem countTrue_replicate_false (n : Nat) : countTrue (List.replicate n false) = 0 := by
  simp [countTrue, List.count_replicate]

theorem countTrue_replicate_true (n : Nat) : countTrue (List.replicate n true) = n := by
  simp [countTrue, List.count_replicate]

theorem countTrue_le_of_pointwise :
    ∀ (l1 l2 : List Bool), l1.length = l2.length →
      (∀ t : Nat, l2.getD t false = true → l1.getD t false = true) →
      countTrue l2 ≤ countTrue l1 := by
  intro l1
  induction l1 with
  | nil =>
      intro l2 hlen _
      have h2 : l2 = [] := List.length_eq_zero.mp (by simpa using hlen.symm)
      simp [h2]
  | cons a t1 ih =>
      intro l2 hlen hpt
      cases l2 with
      | nil => simp [countTrue]
      | cons b t2 =>
          have htail : countTrue t2 ≤ countTrue t1 := by
            refine ih t2 (by simpa using hlen) ?_
            intro t ht
            exact hpt (t + 1) (by simpa using ht)
          have h0 := hpt 0
          rw [countTrue_cons, countTrue_cons]
          cases a <;> cases b <;> simp_all <;> omega

theorem eq_of_pointwise_count :
    ∀ (l1 l2 : List Bool), l1.length = l2.length →
      (∀ t : Nat, l2.getD t false = true → l1.getD t false = true) →
      countTrue l1 = countTrue l2 → l1 = l2 := by
  intro l1
  induction l1 with
  | nil =>
      intro l2 hlen _ _
      rw [List.length_nil] at hlen
      exact (List.length_eq_zero.mp hlen.symm).symm
  | cons a t1 ih =>
      intro l2 hlen hpt hcnt
      cases l2 with
      | nil => simp at hlen
      | cons b t2 =>
          have hlt : t1.length = t2.length := by simpa using hlen
          have hpt2 : ∀ t : Nat, t2.getD t false = true → t1.getD t false = true :=
            fun t ht => hpt (t + 1) (by simpa using ht)
          have h0 := hpt 0
          have hmono := countTrue_le_of_pointwise t1 t2 hlt hpt2
          rw [countTrue_cons, countTrue_cons] at hcnt
          have hab : a = b := by
            cases a <;> cases b <;> simp_all <;> omega
          subst hab
          have : countTrue t1 = countTrue t2 := by
            cases a <;> simp at hcnt <;> omega
          rw [ih t2 hlt hpt2 this]

/-! ### Run-derivation lemmas -/

theorem runsGo_replicate_false_append (l : List Bool) :
    ∀ m : Nat, runsGo (List.replicate m false ++ l) 0 = runsGo l 0 := by
  intro m
  induction m with
  | zero => rfl
  | succ k ih => simpa [List.replicate_succ, runsGo] using ih

theorem runsGo_replicate_true_append (l : List Bool) :
    ∀ (r acc : Nat), runsGo (List.replicate r true ++ l) acc = runsGo l (acc + r) := by
  intro r
  induction r with
  | zero => intro acc; simp
  | succ k ih =>
      intro acc
      rw [List.replicate_succ]
      show runsGo (true :: (List.replicate k true ++ l)) acc = _
      rw [runsGo, ih (acc + 1)]
      congr 1
      omega

theorem runsGo_replicate_false (m n : Nat) :
    runsGo (List.replicate m false) (n + 1) = [n + 1] := by
  cases m with
  | zero => rfl
  | succ k =>
      rw [List.replicate_succ]
      show runsGo (false :: List.replicate k false) (n + 1) = [n + 1]
      rw [runsGo]
      have := runsGo_replicate_false_append ([] : List Bool) k
      simpa using this

/-! ### Lemmas about `lineOf` and `shiftedPos` -/

theorem lineOf_nil_runs : ∀ gs : List Nat, lineOf gs [] = List.replicate gs.sum false := by
  intro gs
  induction gs with
  | nil => rfl
  | cons g t ih =>
      rw [lineOf, ih]
      rw [List.sum_cons, ← List.replicate_add]

theorem lineOf_length :
    ∀ (c g : List Nat), g.length = c.length + 1 → (lineOf g c).length = g.sum + c.sum := by
  intro c
  induction c with
  | nil =>
      intro g _
      rw [lineOf_nil_runs]
      simp
  | cons r rs ih =>
      intro g hg
      cases g with
      | nil => simp at hg
      | cons g0 gt =>
          rw [lineOf]
          have := ih gt (by simpa using hg)
          simp only [List.length_append, List.length_replicate, this, List.sum_cons]
          omega

theorem countTrue_lineOf :
    ∀ (c g : List Nat), g.length = c.length + 1 → countTrue (lineOf g c) = c.sum := by
  intro c
  induction c with
  | nil =>
      intro g _
      rw [lineOf_nil_runs, countTrue_replicate_false]
      rfl
  | cons r rs ih =>
      intro g hg
      cases g with
      | nil => simp at hg
      | cons g0 gt =>
          rw [lineOf, countTrue_append, countTrue_append, countTrue_replicate_false,
            countTrue_replicate_true, ih gt (by simpa using hg)]
          simp

theorem getD_append_lt {α : Type} (l1 l2 : List α) (d : α) (t : Nat) (h : t < l1.length) :
    (l1 ++ l2).getD t d = l1.getD t d := by
  unfold List.getD
  rw [List.get?_append h]

theorem getD_append_ge {α : Type} (l1 l2 : List α) (d : α) (t : Nat) (h : l1.length ≤ t) :
    (l1 ++ l2).getD t d = l2.getD (t - l1.length) d := by
  unfold List.getD
  rw [List.get?_append_right h]

theorem getD_lineOf :
    ∀ (c g : List Nat) (t : Nat),
      (lineOf g c).getD t false = true ↔ t ∈ shiftedPos g c := by
  intro c
  induction c with
  | nil =>
      intro g t
      rw [lineOf_nil_runs]
      constructor
      · intro h
        by_cases ht : t < g.sum
        · rw [getD_replicate_lt _ _ ht] at h
          simp at h
        · rw [getD_of_length_le _ _ (by simpa using not_lt.mp ht)] at h
          simp at h
      · intro h
        cases g <;> simp [shiftedPos] at h
  | cons r rs ih =>
      intro g t
      cases g with
      | nil =>
          simp [lineOf, shiftedPos]
      | cons g0 gt =>
          rw [lineOf, shiftedPos, List.append_assoc]
          by_cases h1 : t < g0
          · rw [getD_append_lt _ _ _ _ (by simpa using h1), getD_replicate_lt _ _ h1]
            constructor
            · intro h; exact absurd h (by simp)
            · intro h
              rcases List.mem_append.mp h with h | h
              · obtain ⟨o, _, rfl⟩ := List.mem_map.mp h
                omega
              · obtain ⟨p, _, rfl⟩ := List.mem_map.mp h
                omega
          · rw [getD_append_ge _ _ _ _ (by simpa using not_lt.mp h1)]
            simp only [List.length_replicate]
            by_cases h2 : t - g0 < r
            · rw [getD_append_lt _ _ _ _ (by simpa using h2),
                getD_replicate_lt _ _ h2]
              constructor
              · intro _
                apply List.mem_append.mpr
                left
                exact List.mem_map.mpr ⟨t - g0, List.mem_range.mpr h2, by omega⟩
              · intro _; rfl
            · rw [getD_append_ge _ _ _ _ (by simpa using not_lt.mp h2)]
              simp only [List.length_replicate]
              rw [ih gt (t - g0 - r)]
              constructor
              · intro h
                apply List.mem_append.mpr
                right
                exact List.mem_map.mpr ⟨t - g0 - r, h, by omega⟩
              · intro h
                rcases List.mem_append.mp h with h | h
                · obtain ⟨o, ho, rfl⟩ := List.mem_map.mp h
                  have := List.mem_range.mp ho
                  omega
                · obtain ⟨p, hp, heq⟩ := List.mem_map.mp h
                  have : t - g0 - r = p := by omega
                  exact this ▸ hp

theorem runsOf_lineOf :
    ∀ (c gs : List Nat) (gl : Nat), gs.length = c.length →
      (∀ r ∈ c, 0 < r) → innerPos gs →
      runsOf (lineOf (gl :: gs) c) = c := by
  intro c
  induction c with
  | nil =>
      intro gs gl hlen _ _
      have hgs : gs = [] := List.length_eq_zero.mp hlen
      subst hgs
      show runsGo (lineOf [gl] []) 0 = []
      rw [lineOf_nil_runs]
      have := runsGo_replicate_false_append ([] : List Bool) (List.sum [gl])
      simpa using this
  | cons r rs ih =>
      intro gs gl hlen hpos hinner
      cases gs with
      | nil => simp at hlen
      | cons g1 gt =>
          obtain ⟨rm, rfl⟩ : ∃ rm, r = rm + 1 := by
            have := hpos r (by simp)
            exact ⟨r - 1, by omega⟩
          show runsGo (lineOf (gl :: g1 :: gt) ((rm + 1) :: rs)) 0 = _
          rw [lineOf, List.append_assoc, runsGo_replicate_false_append,
            runsGo_replicate_true_append, Nat.zero_add]
          cases rs with
          | nil =>
              have hgt : gt = [] := by simpa using hlen
              subst hgt
              show runsGo (lineOf [g1] []) (rm + 1) = [rm + 1]
              rw [lineOf_nil_runs]
              exact runsGo_replicate_false (List.sum [g1]) rm
          | cons r2 rs2 =>
              have hg1 : 0 < g1 := by
                cases gt with
                | nil => simp at hlen
                | cons a b => exact hinner.1
              obtain ⟨gm, rfl⟩ : ∃ gm, g1 = gm + 1 := ⟨g1 - 1, by omega⟩
              have hinner2 : innerPos gt := by
                cases gt with
                | nil => trivial
                | cons a b => exact hinner.2
              have hstep : lineOf ((gm + 1) :: gt) (r2 :: rs2) =
                  false :: lineOf (gm :: gt) (r2 :: rs2) := by
                rw [lineOf, lineOf, List.replicate_succ]
                simp
              rw [hstep]
              show runsGo (false :: lineOf (gm :: gt) (r2 :: rs2)) (rm + 1) = _
              rw [runsGo]
              have hih := ih gt gm (by simpa using hlen)
                (fun x hx => hpos x (by simp [hx])) hinner2
              unfold runsOf at hih
              rw [hih]

/-! ### Structure of the compiled gap domains -/

theorem gapDomsTail_length (sm : Int) :
    ∀ c : List Nat, (gapDomsTail sm c).length = c.length := by
  intro c
  induction c with
  | nil => rfl
  | cons r rs ih =>
      cases rs with
      | nil => rfl
      | cons r2 rs2 => simpa [gapDomsTail] using ih

theorem gapDomsTail_closed (sm : Int) :
    ∀ c : List Nat, c ≠ [] →
      gapDomsTail sm c = (List.range c.length).map
        (fun j => (if j = c.length - 1 then (0 : Int) else 1, max 1 sm)) := by
  intro c
  induction c with
  | nil => intro h; exact absurd rfl h
  | cons r rs ih =>
      intro _
      cases rs with
      | nil =>
          rw [gapDomsTail, show List.range ([r] : List Nat).length = [0] from rfl]
          simp
      | cons r2 rs2 =>
          rw [gapDomsTail, ih (by simp)]
          simp only [List.length_cons]
          rw [List.range_succ_eq_map (rs2.length + 1), List.map_cons, List.map_map]
          apply List.cons_eq_cons.mpr
          constructor
          · have h0 : ¬ (0 = rs2.length + 1 + 1 - 1) := by omega
            simp [h0]
          · apply List.map_congr_left
            intro j _
            simp only [Function.comp_apply, Nat.succ_eq_add_one]
            by_cases hj : j = rs2.length + 1 - 1
            · have h2 : j + 1 = rs2.length + 1 + 1 - 1 := by omega
              simp [hj, h2]
            · have h2 : ¬ (j + 1 = rs2.length + 1 + 1 - 1) := by omega
              simp [hj, h2]

theorem innerPos_of_domains (sm : Int) :
    ∀ (c gs : List Nat), gs.length = c.length →
      (∀ p ∈ gs.zip (gapDomsTail sm c), inDomain p.fst p.snd) →
      innerPos gs := by
  intro c
  induction c with
  | nil =>
      intro gs hlen _
      rw [List.length_eq_zero.mp hlen]
      trivial
  | cons r rs ih =>
      intro gs hlen hdom
      cases gs with
      | nil => trivial
      | cons x xs =>
          cases rs with
          | nil =>
              have : xs = [] := by simpa using hlen
              subst this
              trivial
          | cons r2 rs2 =>
              cases xs with
              | nil => simp at hlen
              | cons y ys =>
                  constructor
                  · have hmem := hdom (x, (1, max 1 sm)) (by rw [gapDomsTail]; simp)
                    have h1 : (1 : Int) ≤ (x : Int) := hmem.1
                    omega
                  · apply ih (y :: ys) (by simpa using hlen)
                    intro p hp
                    apply hdom
                    rw [gapDomsTail]
                    simp only [List.zip_cons_cons, List.mem_cons]
                    right
                    exact hp

/-! ### Values of the sequence-element variables -/

theorem shiftedPos_nil : ∀ gs : List Nat, shiftedPos gs [] = [] := by
  intro gs
  cases gs <;> rfl

theorem posDefsFrom_map_posVal (g : List Nat) :
    ∀ (rs : List Nat) (k cum : Nat), k + rs.length < g.length →
      (posDefsFrom (k + 1) cum rs).map (posVal g) =
        (shiftedPos (g.drop k) rs).map (fun p => (g.take k).sum + cum + p) := by
  intro rs
  induction rs with
  | nil =>
      intro k cum _
      rw [posDefsFrom, shiftedPos_nil]
      rfl
  | cons r rs2 ih =>
      intro k cum hk
      have hklt : k < g.length := by simp at hk; omega
      rw [posDefsFrom, List.map_append, List.map_map,
        ih (k + 1) (cum + r) (by simp at hk ⊢; omega)]
      rw [List.drop_eq_getElem_cons hklt, shiftedPos, List.map_append, List.map_map,
        List.map_map]
      have htake : (g.take (k + 1)).sum = (g.take k).sum + g[k] := by
        rw [List.sum_take_succ g k hklt]
      congr 1
      · apply List.map_congr_left
        intro o _
        simp only [Function.comp_apply, posVal]
        omega
      · apply List.map_congr_left
        intro p _
        simp only [Function.comp_apply]
        omega

theorem posDefs_map_posVal (size : Nat) (c g : List Nat) (h : c.length < g.length) :
    ((compileRegion size c).posDefs).map (posVal g) = shiftedPos g c := by
  have h0 := posDefsFrom_map_posVal g c 0 0 (by simpa using h)
  simp only [compileRegion] at *
  rw [show (1 : Nat) = 0 + 1 from rfl]
  rw [h0]
  simp

theorem flatMap_congr_aux {α β : Type} (l : List α) (f1 f2 : α → List β)
    (h : ∀ a ∈ l, f1 a = f2 a) : l.flatMap f1 = l.flatMap f2 := by
  induction l with
  | nil => rfl
  | cons a t ih =>
      rw [List.flatMap_cons, List.flatMap_cons, h a (by simp),
        ih (fun x hx => h x (by simp [hx]))]

theorem posDefsFrom_closed :
    ∀ (c : List Nat) (k cum : Nat),
      posDefsFrom (k + 1) cum c =
        (List.range c.length).flatMap
          (fun i => (List.range (c.getD i 0)).map
            (fun o => (k + 1 + i, cum + (c.take i).sum + o))) := by
  intro c
  induction c with
  | nil => intro k cum; simp [posDefsFrom]
  | cons r rs ih =>
      intro k cum
      rw [posDefsFrom, ih (k + 1) (cum + r)]
      rw [show (r :: rs).length = rs.length + 1 from rfl,
        List.range_succ_eq_map rs.length, List.flatMap_cons, List.flatMap_map]
      congr 1
      apply flatMap_congr_aux
      intro i _
      simp only [Function.comp_apply, Nat.succ_eq_add_one]
      have hgetD : (r :: rs).getD (i + 1) 0 = rs.getD i 0 := rfl
      rw [hgetD]
      apply List.map_congr_left
      intro o _
      simp only [List.take_succ_cons, List.sum_cons, Prod.mk.injEq]
      omega

/-! ### From model satisfaction to the laid-out line -/

theorem modelSat_gap_length (size : Nat) (c g : List Nat) (line : List Bool)
    (hm : modelSat (compileRegion size c) g line) : g.length = c.length + 1 := by
  have h := hm.1
  simpa [compileRegion, gapDomsTail_length] using h

theorem line_eq_lineOf (size : Nat) (c g : List Nat) (line : List Bool)
    (hm : modelSat (compileRegion size c) g line) (hlen : line.length = size) :
    line = lineOf g c := by
  have hglen : g.length = c.length + 1 := modelSat_gap_length size c g line hm
  obtain ⟨hg, hdom, hsum, hcnt, hel⟩ := hm
  have hs : g.sum + c.sum = size := by
    have h1 : (g.sum : Int) = (size : Int) - (c.sum : Int) := by
      simpa [compileRegion] using hsum
    omega
  apply eq_of_pointwise_count line (lineOf g c)
  · rw [hlen, lineOf_length c g hglen]
    omega
  · intro t ht
    rw [getD_lineOf c g t,
      ← posDefs_map_posVal size c g (by omega)] at ht
    obtain ⟨p, hp, rfl⟩ := List.mem_map.mp ht
    exact (hel p hp).2
  · rw [countTrue_lineOf c g hglen]
    simpa [compileRegion] using hcnt

theorem regionSat_runs (size : Nat) (c : List Nat) (line : List Bool)
    (hsat : regionSat size c line) (hlen : line.length = size)
    (hpos : ∀ r ∈ c, 0 < r) : runsOf line = c := by
  obtain ⟨g, _, hm⟩ := hsat
  have hglen : g.length = c.length + 1 := modelSat_gap_length size c g line hm
  have hline := line_eq_lineOf size c g line hm hlen
  obtain ⟨hg, hdom, hsum, hcnt, hel⟩ := hm
  cases g with
  | nil => simp at hglen
  | cons g0 gt =>
      have hinner : innerPos gt := by
        apply innerPos_of_domains ((size : Int) - (c.sum : Int)) c gt (by simpa using hglen)
        intro p hp
        apply hdom
        have : (g0 :: gt).zip ((compileRegion size c).gapDoms) =
            (g0, (0, (size : Int) - (c.sum : Int))) ::
              gt.zip (gapDomsTail ((size : Int) - (c.sum : Int)) c) := by
          simp [compileRegion]
        rw [this]
        exact List.mem_cons_of_mem _ hp
      rw [hline]
      exact runsOf_lineOf c gt g0 (by simpa using hglen) hpos hinner

/-! ### Structure of the constructed regions -/

theorem headD_range_map {α : Type} (f : Nat → α) (n : Nat) (d : α) (h : 0 < n) :
    ((List.range n).map f).headD d = f 0 := by
  cases n with
  | zero => omega
  | succ m => rw [List.range_succ_eq_map, List.map_cons]; rfl

theorem count_zero_range (n : Nat) (h : 0 < n) : (List.range n).count 0 = 1 := by
  cases n with
  | zero => omega
  | succ m =>
      rw [List.range_succ_eq_map, List.count_cons_self]
      have : (List.count 0 ((List.range m).map Nat.succ)) = 0 := by
        apply List.count_eq_zero.mpr
        intro hmem
        obtain ⟨j, _, hj⟩ := List.mem_map.mp hmem
        exact Nat.succ_ne_zero j hj
      omega

theorem rowCoords_map_fst (n i : Nat) :
    (rowCoords n i).map Prod.fst = List.replicate n i := by
  unfold rowCoords
  rw [List.map_map]
  have : (Prod.fst ∘ fun j => ((i, j) : Nat × Nat)) = fun _ => i := rfl
  rw [this, List.map_const', List.length_range]

theorem rowCoords_map_snd (n i : Nat) :
    (rowCoords n i).map Prod.snd = List.range n := by
  unfold rowCoords
  rw [List.map_map]
  have : (Prod.snd ∘ fun j => ((i, j) : Nat × Nat)) = id := rfl
  rw [this, List.map_id]

theorem colCoords_map_fst (n i : Nat) :
    (colCoords n i).map Prod.fst = List.range n := by
  unfold colCoords
  rw [List.map_map]
  have : (Prod.fst ∘ fun j => ((j, i) : Nat × Nat)) = id := rfl
  rw [this, List.map_id]

theorem colCoords_map_snd (n i : Nat) :
    (colCoords n i).map Prod.snd = List.replicate n i := by
  unfold colCoords
  rw [List.map_map]
  have : (Prod.snd ∘ fun j => ((j, i) : Nat × Nat)) = fun _ => i := rfl
  rw [this, List.map_const', List.length_range]

theorem head?_range_map {α : Type} (f : Nat → α) (n : Nat) (h : 0 < n) :
    ((List.range n).map f).head? = some (f 0) := by
  cases n with
  | zero => omega
  | succ m => rw [List.range_succ_eq_map, List.map_cons]; rfl

theorem rowCoords_headD (n i : Nat) (h : 0 < n) :
    (rowCoords n i).headD (0, 0) = (i, 0) :=
  headD_range_map _ n _ h

theorem colCoords_headD (n i : Nat) (h : 0 < n) :
    (colCoords n i).headD (0, 0) = (0, i) :=
  headD_range_map _ n _ h

theorem rowCoords_head? (n i : Nat) (h : 0 < n) :
    (rowCoords n i).head? = some (i, 0) :=
  head?_range_map _ n h

theorem colCoords_head? (n i : Nat) (h : 0 < n) :
    (colCoords n i).head? = some (0, i) :=
  head?_range_map _ n h

theorem rowCoords_length (n i : Nat) : (rowCoords n i).length = n := by
  simp [rowCoords]

theorem colCoords_length (n i : Nat) : (colCoords n i).length = n := by
  simp [colCoords]

theorem is_row_rowRegion (n i : Nat) (c : List Nat) (h : 1 ≤ n) :
    Region.is_row ⟨rowCoords n i, c⟩ = true := by
  unfold Region.is_row
  rw [show ({ region := rowCoords n i, constraint := c } : Region).region =
    rowCoords n i from rfl]
  rw [rowCoords_map_fst, rowCoords_headD n i h,
    show ((i, 0) : Nat × Nat).fst = i from rfl, List.count_replicate_self,
    rowCoords_length]
  exact beq_self_eq_true n

theorem is_column_colRegion (n i : Nat) (c : List Nat) (h : 1 ≤ n) :
    Region.is_column ⟨colCoords n i, c⟩ = true := by
  unfold Region.is_column
  rw [show ({ region := colCoords n i, constraint := c } : Region).region =
    colCoords n i from rfl]
  rw [colCoords_map_snd, colCoords_headD n i h,
    show ((0, i) : Nat × Nat).snd = i from rfl, List.count_replicate_self,
    colCoords_length]
  exact beq_self_eq_true n

theorem is_column_rowRegion (n i : Nat) (c : List Nat) (h : 2 ≤ n) :
    Region.is_column ⟨rowCoords n i, c⟩ = false := by
  unfold Region.is_column
  rw [show ({ region := rowCoords n i, constraint := c } : Region).region =
    rowCoords n i from rfl]
  rw [rowCoords_map_snd, rowCoords_headD n i (by omega),
    show ((i, 0) : Nat × Nat).snd = 0 from rfl, count_zero_range n (by omega),
    rowCoords_length, beq_eq_false_iff_ne]
  omega

theorem is_row_colRegion (n i : Nat) (c : List Nat) (h : 2 ≤ n) :
    Region.is_row ⟨colCoords n i, c⟩ = false := by
  unfold Region.is_row
  rw [show ({ region := colCoords n i, constraint := c } : Region).region =
    colCoords n i from rfl]
  rw [colCoords_map_fst, colCoords_headD n i (by omega),
    show ((0, i) : Nat × Nat).fst = 0 from rfl, count_zero_range n (by omega),
    colCoords_length, beq_eq_false_iff_ne]
  omega

theorem rowRegion_mem_mkRegions (n i : Nat) (rC cC : List (List Nat)) (h : i < n) :
    (⟨rowCoords n i, rC.getD i []⟩ : Region) ∈ mkRegions n rC cC := by
  unfold mkRegions
  rw [List.mem_flatMap]
  exact ⟨i, List.mem_range.mpr h, by simp⟩

theorem colRegion_mem_mkRegions (n i : Nat) (rC cC : List (List Nat)) (h : i < n) :
    (⟨colCoords n i, cC.getD i []⟩ : Region) ∈ mkRegions n rC cC := by
  unfold mkRegions
  rw [List.mem_flatMap]
  exact ⟨i, List.mem_range.mpr h, by simp⟩

theorem length_flatMap_pairs {α β : Type} :
    ∀ (l : List α) (f : α → List β), (∀ x ∈ l, (f x).length = 2) →
      (l.flatMap f).length = 2 * l.length := by
  intro l
  induction l with
  | nil => intro f _; rfl
  | cons a t ih =>
      intro f h
      rw [List.flatMap_cons, List.length_append, h a (by simp),
        ih f (fun x hx => h x (by simp [hx]))]
      simp
      omega

theorem mkRegions_length (rC cC : List (List Nat)) (n : Nat) :
    (mkRegions n rC cC).length = 2 * n := by
  unfold mkRegions
  rw [show (2 : Nat) * n = 2 * (List.range n).length by rw [List.length_range]]
  exact length_flatMap_pairs _ _ (fun x _ => rfl)

theorem regionLine_rowRegion (grid : List (List Bool)) (n i : Nat) (c : List Nat)
    (h : 1 ≤ n) : regionLine grid ⟨rowCoords n i, c⟩ = grid.getD i [] := by
  simp [regionLine, is_row_rowRegion n i c h, rowCoords_head? n i h]

theorem regionLine_colRegion (grid : List (List Bool)) (n i : Nat) (c : List Nat)
    (hn : 1 ≤ n) (hi : i < n) (hg : grid.length = n)
    (hrows : ∀ row ∈ grid, row.length = n) :
    regionLine grid ⟨colCoords n i, c⟩ = colLine grid i := by
  by_cases h2 : 2 ≤ n
  · simp [regionLine, colLine, is_row_colRegion n i c h2, colCoords_head? n i hn]
  · have hn1 : n = 1 := by omega
    subst hn1
    have hi0 : i = 0 := by omega
    subst hi0
    obtain ⟨row, hrow⟩ := List.length_eq_one.mp hg
    have hr1 : row.length = 1 := hrows row (by simp [hrow])
    obtain ⟨v, hv⟩ := List.length_eq_one.mp hr1
    subst hrow
    subst hv
    rfl

theorem boardOf_size_toNat (n : Nat) (rC cC : List (List Nat)) :
    (boardOf n rC cC).size.toNat = n := by
  simp [boardOf]

theorem getD_mem_of_lt {α : Type} (l : List α) (d : α) (i : Nat) (h : i < l.length) :
    l.getD i d ∈ l := by
  rw [List.getD_eq_getElem l d h]
  exact List.getElem_mem h

/-- C1 (amended with positive run lengths): on a board whose constraints
respect the fit invariant and contain only positive run lengths, every
solution returned by solve is a full n by n grid whose derived run
sequences reproduce every row and column constraint. -/
theorem claim1_roundtrip (n : Nat) (rC cC : List (List Nat))
    (hr : rC.length = n) (hc : cC.length = n)
    (hfit : ∀ c ∈ rC ++ cC, c.sum + (c.length - 1) ≤ n)
    (hpos : ∀ c ∈ rC ++ cC, ∀ r ∈ c, 0 < r) :
    ∀ grid ∈ (boardOf n rC cC).solve.solutions,
      grid.length = n ∧ (∀ row ∈ grid, row.length = n) ∧
      (∀ i, i < n → runsOf (grid.getD i []) = rC.getD i []) ∧
      (∀ i, i < n → runsOf (colLine grid i) = cC.getD i []) := by
  intro grid hmem
  have hmem2 : grid ∈ (boardOf n rC cC).solveGrids := hmem
  unfold NonogramBoard.solveGrids at hmem2
  rw [List.mem_filter] at hmem2
  obtain ⟨hgrid, hsatb⟩ := hmem2
  have hsat : boardSat (boardOf n rC cC) grid := of_decide_eq_true hsatb
  rw [boardOf_size_toNat] at hgrid
  obtain ⟨hL, hRows⟩ := (mem_allGrids n grid).mp hgrid
  refine ⟨hL, hRows, ?_, ?_⟩
  · intro i hi
    have hmemR : (⟨rowCoords n i, rC.getD i []⟩ : Region) ∈ (boardOf n rC cC).regions :=
      rowRegion_mem_mkRegions n i rC cC hi
    have hrs := hsat _ hmemR
    rw [boardOf_size_toNat] at hrs
    rw [regionLine_rowRegion grid n i _ (by omega)] at hrs
    apply regionSat_runs n _ _ hrs
    · have : grid.getD i [] ∈ grid := getD_mem_of_lt grid [] i (by omega)
      exact hRows _ this
    · intro r hrmem
      apply hpos (rC.getD i []) _ r hrmem
      apply List.mem_append_left
      exact getD_mem_of_lt rC [] i (by omega)
  · intro i hi
    have hmemC : (⟨colCoords n i, cC.getD i []⟩ : Region) ∈ (boardOf n rC cC).regions :=
      colRegion_mem_mkRegions n i rC cC hi
    have hcs := hsat _ hmemC
    rw [boardOf_size_toNat] at hcs
    rw [regionLine_colRegion grid n i _ (by omega) hi hL hRows] at hcs
    apply regionSat_runs n _ _ hcs
    · simp [colLine, hL]
    · intro r hrmem
      apply hpos (cC.getD i []) _ r hrmem
      apply List.mem_append_right
      exact getD_mem_of_lt cC [] i (by omega)

/-- C1 witness: the 1 by 1 board with row and column constraint [1] has
the single solution with its one cell full, and the round trip holds on
every returned solution. -/
theorem claim1_roundtrip_witness :
    (boardOf 1 [[1]] [[1]]).solve.solutions = [[[true]]] ∧
    (∀ grid ∈ (boardOf 1 [[1]] [[1]]).solve.solutions,
      grid.length = 1 ∧ (∀ row ∈ grid, row.length = 1) ∧
      (∀ i, i < 1 → runsOf (grid.getD i []) = [[1]].getD i []) ∧
      (∀ i, i < 1 → runsOf (colLine grid i) = [[1]].getD i [])) :=
  ⟨by decide, claim1_roundtrip 1 [[1]] [[1]] rfl rfl (by decide) (by decide)⟩

/-- C1 counterexample: the constraint [0] on a 1 by 1 board satisfies the
fit invariant, yet the unique solution returned by solve is the all-empty
grid, whose derived row run sequence [] differs from the stored
constraint [0]. -/
theorem claim1_counterexample :
    ([0] : List Nat).sum + (([0] : List Nat).length - 1) ≤ 1 ∧
    (boardOf 1 [[0]] [[0]]).solve.solutions = [[[false]]] ∧
    runsOf (([[false]] : List (List Bool)).getD 0 []) ≠
      ([[0]] : List (List Nat)).getD 0 [] := by
  refine ⟨by decide, by decide, by decide⟩

/-- C2 counterexample: for a region of length 5 with runs [1, 1] the
claimed slack is 5 - 2 - (2 - 1) = 2, but the compiled model gives the
leading gap the domain (0, 3), the interior gap the domain (1, 3) and
constrains the gap sum to 3: the code computes
space_max = size - sum(constraint) without subtracting k - 1. -/
theorem claim2_counterexample :
    (compileRegion 5 [1, 1]).gapDoms.getD 0 (0, 0) ≠ (0, (5 : Int) - 2 - 1) ∧
    (compileRegion 5 [1, 1]).gapDoms.getD 1 (0, 0) ≠ (1, max 1 ((5 : Int) - 2 - 1)) ∧
    (compileRegion 5 [1, 1]).gapSum ≠ (5 : Int) - 2 - 1 := by
  refine ⟨by decide, by decide, by decide⟩

/-- C2 (amended): the compiled gap domains use
space_max = N - sum of runs (with no k - 1 term): the leading gap has
domain (0, space_max) (so (0, N) when k = 0), each interior gap
(1, max 1 space_max), the final gap (0, max 1 space_max), and the gap
variables are constrained to sum to space_max. -/
theorem claim2_gap_domains (size : Nat) (c : List Nat) :
    (compileRegion size c).gapDoms =
      (0, (size : Int) - (c.sum : Int)) ::
        (List.range c.length).map
          (fun j => (if j = c.length - 1 then (0 : Int) else 1,
            max 1 ((size : Int) - (c.sum : Int)))) ∧
    (compileRegion size c).gapSum = (size : Int) - (c.sum : Int) := by
  constructor
  · show (0, (size : Int) - (c.sum : Int)) ::
      gapDomsTail ((size : Int) - (c.sum : Int)) c = _
    cases c with
    | nil => rfl
    | cons r rs =>
        rw [gapDomsTail_closed ((size : Int) - ((r :: rs).sum : Int)) (r :: rs) (by simp)]
  · rfl

/-- C3: every compiled sequence-element variable has the value
(sum of gaps 0..i) + (sum of runs before run i) + offset, each such cell
is constrained full and the filled-cell count equals the run sum, so
under any satisfying assignment a cell of the line is full exactly when
its index is the value of some element variable. -/
theorem claim3_positions (size : Nat) (c g : List Nat) (line : List Bool)
    (hm : modelSat (compileRegion size c) g line) (hlen : line.length = size) :
    ((compileRegion size c).posDefs).map (posVal g) =
      (List.range c.length).flatMap
        (fun i => (List.range (c.getD i 0)).map
          (fun o => (g.take (i + 1)).sum + (c.take i).sum + o)) ∧
    (∀ t, t < size →
      (line.getD t false = true ↔
        t ∈ ((compileRegion size c).posDefs).map (posVal g))) := by
  have hglen := modelSat_gap_length size c g line hm
  constructor
  · show (posDefsFrom 1 0 c).map (posVal g) = _
    have hcf := posDefsFrom_closed c 0 0
    simp only [Nat.zero_add] at hcf
    rw [hcf, List.map_flatMap]
    apply flatMap_congr_aux
    intro i _
    rw [List.map_map]
    apply List.map_congr_left
    intro o _
    simp only [Function.comp_apply, posVal]
    rw [Nat.add_comm 1 i]
    omega
  · intro t ht
    have hline := line_eq_lineOf size c g line hm hlen
    rw [posDefs_map_posVal size c g (by omega), hline, getD_lineOf]

/-- C3 witness: region of length 2 with runs [1], gaps [0, 1] and line
full-empty satisfies the compiled model, and both conclusions hold
there. -/
theorem claim3_positions_witness :
    modelSat (compileRegion 2 [1]) [0, 1] [true, false] ∧
    (((compileRegion 2 [1]).posDefs).map (posVal [0, 1]) =
      (List.range 1).flatMap
        (fun i => (List.range (([1] : List Nat).getD i 0)).map
          (fun o => (([0, 1] : List Nat).take (i + 1)).sum +
            (([1] : List Nat).take i).sum + o)) ∧
    (∀ t, t < 2 → (([true, false] : List Bool).getD t false = true ↔
      t ∈ ((compileRegion 2 [1]).posDefs).map (posVal [0, 1])))) :=
  ⟨by decide, claim3_positions 2 [1] [0, 1] [true, false] (by decide) rfl⟩

/-- C4: when no grid satisfies the compiled model, solve completes
normally and stores the empty solution list instead of raising. -/
theorem claim4_unsat_empty (b : NonogramBoard)
    (h : ∀ grid ∈ allGrids b.size.toNat, ¬ boardSat b grid) :
    b.solve = { b with solutions := [] } := by
  unfold NonogramBoard.solve
  have hempty : b.solveGrids = [] := by
    unfold NonogramBoard.solveGrids
    apply List.filter_eq_nil.mpr
    intro grid hg
    intro hb
    exact h grid hg (of_decide_eq_true hb)
  rw [hempty]

/-- C4 witness: the 2 by 2 board with rows [2], [2] and columns [1], [1]
has no satisfying grid, and solve yields zero solutions on it. -/
theorem claim4_unsat_empty_witness :
    (∀ grid ∈ allGrids (boardOf 2 [[2], [2]] [[1], [1]]).size.toNat,
      ¬ boardSat (boardOf 2 [[2], [2]] [[1], [1]]) grid) ∧
    (boardOf 2 [[2], [2]] [[1], [1]]).solve =
      { boardOf 2 [[2], [2]] [[1], [1]] with solutions := [] } :=
  ⟨by decide, claim4_unsat_empty _ (by decide)⟩

theorem filter_isEmpty_false_of_mem {α : Type} (l : List α) (p : α → Bool) (x : α)
    (hx : x ∈ l) (hp : p x = true) : (l.filter p).isEmpty = false := by
  have hmem : x ∈ l.filter p := List.mem_filter.mpr ⟨hx, hp⟩
  cases hfil : l.filter p with
  | nil => rw [hfil] at hmem; simp at hmem
  | cons a t => rfl

/-- C5 counterexample: constraint_of accepts the run length 0 and the
fit-violating run 5 on a 2 by 2 board, storing them without any
InvalidConstraintError. -/
theorem claim5_counterexample :
    ((NonogramBoard.init 2).constraint_of "row" 0 [0]).toOption =
      some (boardOf 2 [[0], []] [[], []]) ∧
    ((NonogramBoard.init 2).constraint_of "row" 0 [5]).toOption =
      some (boardOf 2 [[5], []] [[], []]) := by
  refine ⟨by decide, by decide⟩

/-- C5 (amended): constraint_of validates only the index; any constraint
content, including non-positive run lengths and fit-invariant
violations, is accepted and assigned, so the solving step can observe
such regions. -/
theorem claim5_no_validation (n : Nat) (rC cC : List (List Nat)) (d : String)
    (idx : Int) (c : List Nat) (hn : 0 < n) (h0 : 0 ≤ idx) (h1 : idx < (n : Int)) :
    isOkE ((boardOf n rC cC).constraint_of d idx c) = true := by
  unfold NonogramBoard.constraint_of
  have hguard : ¬ (idx < 0 ∨ (boardOf n rC cC).size ≤ idx) := by
    simp only [boardOf]
    omega
  rw [if_neg hguard]
  have hi : idx.toNat < n := by omega
  have hidx : ((idx.toNat : Nat) : Int) = idx := Int.toNat_of_nonneg h0
  have hne : ((boardOf n rC cC).regions.filter (regionPred d idx)).isEmpty = false := by
    by_cases hd : d = "row"
    · apply filter_isEmpty_false_of_mem _ _
        (⟨rowCoords n idx.toNat, rC.getD idx.toNat []⟩ : Region)
        (rowRegion_mem_mkRegions n idx.toNat rC cC hi)
      unfold regionPred
      rw [if_pos hd, is_row_rowRegion n idx.toNat _ hn,
        rowCoords_headD n idx.toNat hn]
      simp [hidx]
    · apply filter_isEmpty_false_of_mem _ _
        (⟨colCoords n idx.toNat, cC.getD idx.toNat []⟩ : Region)
        (colRegion_mem_mkRegions n idx.toNat rC cC hi)
      unfold regionPred
      rw [if_neg hd, is_column_colRegion n idx.toNat _ hn,
        colCoords_headD n idx.toNat hn]
      simp [hidx]
  rw [if_neg (by simp [hne])]
  rfl

/-- C5 witness: on an empty-constraint 2 by 2 board the in-range call
with the illegal run length 0 succeeds. -/
theorem claim5_no_validation_witness :
    (0 : Nat) < 2 ∧ (0 : Int) ≤ 0 ∧ (0 : Int) < (2 : Int) ∧
    isOkE ((boardOf 2 [[], []] [[], []]).constraint_of "row" 0 [0]) = true :=
  ⟨by decide, by decide, by decide,
    claim5_no_validation 2 [[], []] [[], []] "row" 0 [0] (by decide) (by decide)
      (by decide)⟩

theorem getD_replicate_nil (n i : Nat) :
    (List.replicate n ([] : List Nat)).getD i [] = [] := by
  by_cases h : i < n
  · exact getD_replicate_lt _ _ h
  · exact getD_of_length_le _ _ (by simpa using not_lt.mp h)

/-- C6 counterexample: construction with a non-positive size raises
nothing; a board object is produced with the given size, an empty grid
and no regions. -/
theorem claim6_counterexample :
    NonogramBoard.init (-1) =
      { size := -1, board := [], regions := [], solutions := [] } ∧
    NonogramBoard.init 0 =
      { size := 0, board := [], regions := [], solutions := [] } := by
  refine ⟨by decide, by decide⟩

/-- C6 (amended): for size ≤ 0 the constructor silently produces a
degenerate board (empty grid, no regions) instead of failing; for
size > 0 it allocates the n by n all-empty grid and 2n regions, n rows
and n columns, each of which spans a full line and starts with the empty
constraint. -/
theorem claim6_construction (size : Int) :
    (size ≤ 0 → NonogramBoard.init size =
      { size := size, board := [], regions := [], solutions := [] }) ∧
    (0 < size →
      (NonogramBoard.init size).board =
        List.replicate size.toNat (List.replicate size.toNat false) ∧
      (NonogramBoard.init size).regions.length = 2 * size.toNat ∧
      (∀ r ∈ (NonogramBoard.init size).regions,
        r.region.length = size.toNat ∧ r.constraint = []) ∧
      (∀ i, i < size.toNat →
        (⟨rowCoords size.toNat i, []⟩ : Region) ∈ (NonogramBoard.init size).regions ∧
        (⟨colCoords size.toNat i, []⟩ : Region) ∈ (NonogramBoard.init size).regions)) := by
  constructor
  · intro h
    have h0 : size.toNat = 0 := by omega
    unfold NonogramBoard.init
    rw [h0]
    rfl
  · intro _
    refine ⟨rfl, mkRegions_length _ _ _, ?_, ?_⟩
    · intro r hr
      unfold NonogramBoard.init mkRegions at hr
      rw [List.mem_flatMap] at hr
      obtain ⟨i, _, hmem⟩ := hr
      rcases List.mem_cons.mp hmem with h1 | h1
      · subst h1
        exact ⟨rowCoords_length _ _, getD_replicate_nil _ _⟩
      · rcases List.mem_cons.mp h1 with h2 | h2
        · subst h2
          exact ⟨colCoords_length _ _, getD_replicate_nil _ _⟩
        · simp at h2
    · intro i hi
      constructor
      · have hmem := rowRegion_mem_mkRegions size.toNat i
          (List.replicate size.toNat []) (List.replicate size.toNat []) hi
        rw [getD_replicate_nil] at hmem
        exact hmem
      · have hmem := colRegion_mem_mkRegions size.toNat i
          (List.replicate size.toNat []) (List.replicate size.toNat []) hi
        rw [getD_replicate_nil] at hmem
        exact hmem

/-- C6 witness: the degenerate branch at size -2 and the regular branch
at size 2. -/
theorem claim6_construction_witness :
    NonogramBoard.init (-2) =
      { size := -2, board := [], regions := [], solutions := [] } ∧
    (NonogramBoard.init 2).regions.length = 2 * (2 : Int).toNat :=
  ⟨(claim6_construction (-2)).1 (by decide),
    ((claim6_construction 2).2 (by decide)).2.1⟩

/-- C7: solve replaces the stored solutions with the freshly computed
set rather than accumulating, touches no other board state, and a
second call on the unchanged board produces the identical result. -/
theorem claim7_idempotent (b : NonogramBoard) :
    b.solve.solve = b.solve ∧ b.solve.size = b.size ∧ b.solve.board = b.board ∧
    b.solve.regions = b.regions ∧ b.solve.solutions = b.solveGrids :=
  ⟨rfl, rfl, rfl, rfl, rfl⟩

/-- C8: on a size-1 board the call constraint_of("column", 0, [1])
writes the constraint onto the row region (the first region, which
passes the is_column test because a one-cell region is both a row and a
column), leaving the actual column region's constraint empty. -/
theorem claim8_misdirected_write :
    ((NonogramBoard.init 1).constraint_of "column" 0 [1]).toOption =
      some { size := 1, board := [[false]],
             regions := [ { region := [(0, 0)], constraint := [1] },
                          { region := [(0, 0)], constraint := [] } ],
             solutions := [] } ∧
    regionPred "column" 0 ⟨rowCoords 1 0, []⟩ = true := by
  refine ⟨by decide, by decide⟩

/-! ### Lemmas about the embedded Python failure modes -/

theorem bind_isOk {α β : Type} (x : Except String α) (f : α → Except String β)
    (h : isOkE (x >>= f) = true) : ∃ a, x = .ok a ∧ isOkE (f a) = true := by
  cases x with
  | ok a => exact ⟨a, rfl, h⟩
  | error e => exact Bool.noConfusion h

theorem mapM_ok_elems {α β : Type} :
    ∀ (l : List α) (f : α → Except String β) (ys : List β),
      l.mapM f = .ok ys → ∀ x ∈ l, ∃ y, f x = .ok y := by
  intro l
  induction l with
  | nil => intro f ys _ x hx; simp at hx
  | cons a t ih =>
      intro f ys hm x hx
      rw [List.mapM_cons] at hm
      cases hfa : f a with
      | error e => rw [hfa] at hm; exact Except.noConfusion hm
      | ok b =>
          rw [hfa] at hm
          cases hft : t.mapM f with
          | error e =>
              rw [hft] at hm
              exact Except.noConfusion hm
          | ok bs =>
              rcases List.mem_cons.mp hx with h1 | h1
              · exact ⟨b, h1 ▸ hfa⟩
              · exact ih f bs hft x h1

theorem mapM_ok_of_all {α β : Type} :
    ∀ (l : List α) (f : α → Except String β) (h : α → β),
      (∀ x ∈ l, f x = .ok (h x)) → l.mapM f = .ok (l.map h) := by
  intro l
  induction l with
  | nil => intro f h _; rfl
  | cons a t ih =>
      intro f h hall
      rw [List.mapM_cons, hall a (by simp), ih f h (fun x hx => hall x (by simp [hx]))]
      rfl

theorem pyMax_nil_error : isOkE (pyMax []) = false := rfl

theorem natMax_zero_left (a : Nat) : Nat.max 0 a = a := by
  simp only [Nat.max_def]
  split_ifs <;> omega

theorem natMax_zero_right (a : Nat) : Nat.max a 0 = a := by
  simp only [Nat.max_def]
  split_ifs <;> omega

theorem natMax_assoc (a b c : Nat) :
    Nat.max (Nat.max a b) c = Nat.max a (Nat.max b c) := by
  simp only [Nat.max_def]
  split_ifs <;> omega

theorem natMax_comm (a b : Nat) : Nat.max a b = Nat.max b a := by
  simp only [Nat.max_def]
  split_ifs <;> omega

theorem natMax_left_comm (a b c : Nat) :
    Nat.max a (Nat.max b c) = Nat.max b (Nat.max a c) := by
  simp only [Nat.max_def]
  split_ifs <;> omega

theorem foldl_max_init : ∀ (l : List Nat) (a : Nat),
    l.foldl Nat.max a = Nat.max a (maxOf l) := by
  intro l
  induction l with
  | nil => intro a; simp [maxOf]
  | cons x t ih =>
      intro a
      rw [List.foldl_cons, ih (Nat.max a x)]
      unfold maxOf
      rw [List.foldl_cons, ih (Nat.max 0 x), natMax_zero_left, natMax_assoc]
      rfl

theorem maxOf_cons (x : Nat) (l : List Nat) : maxOf (x :: l) = Nat.max x (maxOf l) := by
  unfold maxOf
  rw [List.foldl_cons, foldl_max_init, natMax_zero_left]
  rfl

theorem maxOf_append (l1 l2 : List Nat) :
    maxOf (l1 ++ l2) = Nat.max (maxOf l1) (maxOf l2) := by
  unfold maxOf
  rw [List.foldl_append, foldl_max_init]
  rfl

theorem pyMax_ok (l : List Nat) (h : l ≠ []) : pyMax l = .ok (maxOf l) := by
  cases l with
  | nil => exact absurd rfl h
  | cons x t =>
      show Except.ok (t.foldl Nat.max x) = Except.ok (maxOf (x :: t))
      rw [foldl_max_init t x, maxOf_cons]

theorem maxOf_flatMap_pairs : ∀ (l : List Nat) (f g : Nat → Nat),
    maxOf (l.flatMap (fun i => [f i, g i])) =
      Nat.max (maxOf (l.map f)) (maxOf (l.map g)) := by
  intro l
  induction l with
  | nil => intro f g; simp [maxOf]
  | cons a t ih =>
      intro f g
      have hpair : maxOf [f a, g a] = Nat.max (f a) (g a) := by
        rw [maxOf_cons, maxOf_cons]
        show (f a).max ((g a).max (maxOf ([] : List Nat))) = _
        rw [show maxOf ([] : List Nat) = 0 from rfl, natMax_zero_right]
      rw [List.flatMap_cons, maxOf_append, ih f g, hpair, List.map_cons, List.map_cons,
        maxOf_cons, maxOf_cons]
      simp [natMax_assoc, natMax_comm, natMax_left_comm]

theorem maxOf_map_maxOf : ∀ cs : List (List Nat),
    maxOf (cs.map maxOf) = maxOf (cs.flatMap id) := by
  intro cs
  induction cs with
  | nil => rfl
  | cons c t ih =>
      rw [List.map_cons, maxOf_cons, List.flatMap_cons, maxOf_append, ih]
      rfl

theorem map_getD_range {α : Type} (d : α) :
    ∀ l : List α, (List.range l.length).map (fun i => l.getD i d) = l := by
  intro l
  induction l with
  | nil => rfl
  | cons a t ih =>
      rw [show (a :: t).length = t.length + 1 from rfl, List.range_succ_eq_map,
        List.map_cons, List.map_map]
      have h2 : ((fun i => (a :: t).getD i d) ∘ Nat.succ) = fun i => t.getD i d := rfl
      rw [h2, ih]
      rfl

/-! ### The regions the renderer classifies as columns -/

theorem filter_flatMap_aux {α β : Type} (l : List α) (f : α → List β) (p : β → Bool) :
    (l.flatMap f).filter p = l.flatMap (fun a => (f a).filter p) := by
  induction l with
  | nil => rfl
  | cons a t ih => rw [List.flatMap_cons, List.flatMap_cons, List.filter_append, ih]

theorem flatMap_singleton_map {α β : Type} (l : List α) (g : α → β) :
    l.flatMap (fun a => [g a]) = l.map g := by
  induction l with
  | nil => rfl
  | cons a t ih => rw [List.flatMap_cons, List.map_cons, ih]; rfl

theorem filter_is_column_mkRegions (n : Nat) (rC cC : List (List Nat)) (h : 2 ≤ n) :
    (mkRegions n rC cC).filter (fun r => r.is_column) =
      (List.range n).map (fun i => ⟨colCoords n i, cC.getD i []⟩) := by
  unfold mkRegions
  rw [filter_flatMap_aux]
  rw [show (fun i => ([ { region := rowCoords n i, constraint := rC.getD i [] },
      { region := colCoords n i, constraint := cC.getD i [] } ] : List Region).filter
        (fun r => r.is_column)) =
      (fun i => [ ({ region := colCoords n i, constraint := cC.getD i [] } : Region) ])
    from ?_]
  · exact flatMap_singleton_map _ _
  · funext i
    rw [List.filter_cons, List.filter_cons]
    rw [is_column_rowRegion n i _ h, is_column_colRegion n i _ (by omega)]
    rfl

theorem ok_bind {α β : Type} (a : α) (f : α → Except String β) :
    (Except.ok a >>= f) = f a := rfl

theorem error_bind {α β : Type} (e : String) (f : α → Except String β) :
    ((Except.error e : Except String α) >>= f) = Except.error e := rfl

/-- C9 counterexample: on the 2 by 2 board with row constraints
[10], [1] and column constraints [1], [1], the largest run among all
constraints is 10 (numeral length 2), but the renderer computes the
column width 1: the code takes the maximum over the column regions
only. -/
theorem claim9_counterexample :
    (pyMax ((boardOf 2 [[10], [1]] [[1], [1]]).regions.flatMap
      (fun r => r.constraint))).toOption = some 10 ∧
    (Nat.repr 10).length = 2 ∧
    ((boardOf 2 [[10], [1]] [[1], [1]]).tableSpaceOf).toOption = some 1 ∧
    (1 : Nat) ≠ 2 := by
  refine ⟨by decide, by decide, by decide, by decide⟩

/-- C9 (amended): the column alignment width is the numeral length of
the largest run among the column constraints only, and the left margin
is twice the maximum run count over all constraints. -/
theorem claim9_renderer_widths (n : Nat) (rC cC : List (List Nat))
    (hn : 2 ≤ n) (hr : rC.length = n) (hc : cC.length = n)
    (hne : ∀ c ∈ cC, c ≠ []) :
    (boardOf n rC cC).tableSpaceOf = .ok ((Nat.repr (largestRun cC)).length) ∧
    (boardOf n rC cC).leftSpaceOf = .ok (maxRunCount (rC ++ cC) * 2) := by
  have hfil : (boardOf n rC cC).regions.filter (fun r => r.is_column) =
      (List.range n).map (fun i => ⟨colCoords n i, cC.getD i []⟩) :=
    filter_is_column_mkRegions n rC cC hn
  constructor
  · unfold NonogramBoard.tableSpaceOf
    rw [hfil]
    have hmapM : ((List.range n).map
        (fun i => (⟨colCoords n i, cC.getD i []⟩ : Region))).mapM
          (fun r => pyMax r.constraint) =
        .ok (((List.range n).map
          (fun i => (⟨colCoords n i, cC.getD i []⟩ : Region))).map
            (fun r => maxOf r.constraint)) := by
      apply mapM_ok_of_all
      intro r hrm
      obtain ⟨i, hi, rfl⟩ := List.mem_map.mp hrm
      apply pyMax_ok
      apply hne
      have hilt : i < cC.length := by rw [hc]; exact List.mem_range.mp hi
      exact getD_mem_of_lt cC [] i hilt
    rw [hmapM, ok_bind, List.map_map]
    have hfun : ((fun r => maxOf r.constraint) ∘
        (fun i => (⟨colCoords n i, cC.getD i []⟩ : Region))) =
        fun i => maxOf (cC.getD i []) := rfl
    rw [hfun]
    have hmaps : (List.range n).map (fun i => maxOf (cC.getD i [])) =
        cC.map maxOf := by
      rw [show (fun i => maxOf (cC.getD i [])) =
        (maxOf ∘ fun i => cC.getD i []) from rfl]
      rw [← List.map_map, ← hc, map_getD_range]
    rw [hmaps]
    have hne2 : cC.map maxOf ≠ [] := by
      intro hnil
      have : cC.length = 0 := by simpa using congrArg List.length hnil
      omega
    rw [pyMax_ok _ hne2, ok_bind, maxOf_map_maxOf]
    rfl
  · unfold NonogramBoard.leftSpaceOf
    have hmap : (boardOf n rC cC).regions.map (fun r => r.constraint.length) =
        (List.range n).flatMap
          (fun i => [(rC.getD i []).length, (cC.getD i []).length]) := by
      show (mkRegions n rC cC).map (fun r => r.constraint.length) = _
      unfold mkRegions
      rw [List.map_flatMap]
      rfl
    rw [hmap]
    have hne3 : (List.range n).flatMap
        (fun i => [(rC.getD i []).length, (cC.getD i []).length]) ≠ [] := by
      intro hnil
      have hlen := congrArg List.length hnil
      rw [length_flatMap_pairs (List.range n)
        (fun i => [(rC.getD i []).length, (cC.getD i []).length])
        (fun x _ => rfl)] at hlen
      simp at hlen
      omega
    rw [pyMax_ok _ hne3, ok_bind, maxOf_flatMap_pairs]
    have h1 : (List.range n).map (fun i => (rC.getD i []).length) =
        rC.map List.length := by
      rw [show (fun i => (rC.getD i []).length) =
        (List.length ∘ fun i => rC.getD i []) from rfl]
      rw [← List.map_map, ← hr, map_getD_range]
    have h2 : (List.range n).map (fun i => (cC.getD i []).length) =
        cC.map List.length := by
      rw [show (fun i => (cC.getD i []).length) =
        (List.length ∘ fun i => cC.getD i []) from rfl]
      rw [← List.map_map, ← hc, map_getD_range]
    rw [h1, h2]
    show Except.ok ((Nat.max (maxOf (rC.map List.length))
      (maxOf (cC.map List.length))) * 2) = _
    rw [show maxRunCount (rC ++ cC) =
      Nat.max (maxOf (rC.map List.length)) (maxOf (cC.map List.length)) from by
        unfold maxRunCount
        rw [List.map_append]
        exact maxOf_append _ _]

/-- C9 witness: the amended width formulas hold on the counterexample
board. -/
theorem claim9_renderer_widths_witness :
    ((2 : Nat) ≤ 2) ∧
    ((boardOf 2 [[10], [1]] [[1], [1]]).tableSpaceOf =
      .ok ((Nat.repr (largestRun [[1], [1]])).length) ∧
     (boardOf 2 [[10], [1]] [[1], [1]]).leftSpaceOf =
      .ok (maxRunCount ([[10], [1]] ++ [[1], [1]]) * 2)) :=
  ⟨by decide,
    claim9_renderer_widths 2 [[10], [1]] [[1], [1]] (by decide) rfl rfl (by decide)⟩

theorem print_ok_columns (b : NonogramBoard) (dataOpt : Option (List (List Bool)))
    (hok : isOkE (b.print dataOpt) = true) :
    ∀ r ∈ b.regions, r.is_column = true → r.constraint ≠ [] := by
  intro r hr hcol hceq
  unfold NonogramBoard.print at hok
  obtain ⟨ls, hls, hok2⟩ := bind_isOk _ _ hok
  obtain ⟨ts, hts, _⟩ := bind_isOk _ _ hok2
  unfold NonogramBoard.tableSpaceOf at hts
  cases hm : (b.regions.filter (fun r => r.is_column)).mapM
      (fun r => pyMax r.constraint) with
  | error e =>
      rw [hm, error_bind] at hts
      exact Except.noConfusion hts
  | ok maxima =>
      obtain ⟨y, hy⟩ := mapM_ok_elems _ _ _ hm r (List.mem_filter.mpr ⟨hr, hcol⟩)
      rw [hceq] at hy
      exact Except.noConfusion hy

/-- C10: rendering a board in which some region passing the is_column
test carries the empty constraint fails (the inner max of an empty list
raises) whether or not solution data is supplied, so a successful
rendering guarantees that every such region's constraint is
non-empty. -/
theorem claim10_empty_column_render (b : NonogramBoard)
    (dataOpt : Option (List (List Bool))) :
    ((∃ r ∈ b.regions, r.is_column = true ∧ r.constraint = []) →
      isOkE (b.print dataOpt) = false) ∧
    (isOkE (b.print dataOpt) = true →
      ∀ r ∈ b.regions, r.is_column = true → r.constraint ≠ []) := by
  constructor
  · intro ⟨r, hr, hcol, hceq⟩
    cases hok : isOkE (b.print dataOpt) with
    | false => rfl
    | true => exact absurd hceq (print_ok_columns b dataOpt hok r hr hcol)
  · exact print_ok_columns b dataOpt

/-- C10 witness: a 2 by 2 board whose first column constraint is empty
fails to render without data; the error branch of the claim applies. -/
theorem claim10_empty_column_render_witness :
    (∃ r ∈ (boardOf 2 [[1], [1]] [[], [1]]).regions,
      r.is_column = true ∧ r.constraint = []) ∧
    isOkE ((boardOf 2 [[1], [1]] [[], [1]]).print none) = false :=
  ⟨by decide,
    (claim10_empty_column_render (boardOf 2 [[1], [1]] [[], [1]]) none).1 (by decide)⟩

